import Mathlib

/-!
# Verification of the anubistats search engine

This development embeds the core of the `anubistats` repository in Lean 4:

* `crates/anubistats-query/src/lib.rs` — the recursive-descent boolean query
  parser (`primary_expr` / `or_expr` / `and_expr` / `expr` / `parse`);
* `crates/anubistats/src/bin/index.rs` — the per-document index builder
  (postings lists keyed by lowercased title words, stored-fields rows);
* `crates/anubistats/src/main.rs` — the offsets/blob index builder;
* `crates/anubistats/src/repl.rs` — the sorted-offset-index lookup
  (`find_offset_and_length`, `find_postings_list`) and its evaluator;
* `crates/anubistats/src/bin/query.rs` — the column-store page-pruning lookup
  (`find_postings_list_parquet`), the generic evaluator `eval_query`, the
  stored-fields retriever and the date group-by aggregator.

Modelling conventions:

* Rust `&str` values are `List Char`; `char::is_alphanumeric`,
  `char::is_whitespace` and `to_lowercase` are modelled on the ASCII range by
  the corresponding `Char` functions (every input appearing in the claims is
  ASCII).  Rust's byte-wise lexicographic order on UTF-8 strings coincides
  with codepoint-lexicographic order, modelled by the `LinearOrder (List Char)`
  instance (`List.Lex (· < ·)`).
* `RoaringBitmap` is a set of `u32` values; it is modelled as `Finset ℕ`
  (surrogate ids never approach `2 ^ 32` in any claim, so the `try_into`
  conversions cannot fail and are dropped).  `RoaringBitmap::push` adds the
  value only when it exceeds the current maximum.
* The roaring byte serialization is abstracted to the ascending list of the
  set's elements: `serialize` is `Finset.sort (· ≤ ·)`, `serialized_size` its
  length, and `deserialize` rebuilds the `Finset`.  This preserves exactly the
  offset/length bookkeeping of `main.rs` and `repl.rs`, which never inspects
  the bytes themselves.
* Rust `Result<_, E>` is `Except E _`; I/O errors of the artifact files are
  outside the embedded core (the lookup functions receive the decoded
  artifacts as arguments).
* The recursive-descent parser uses a fuel parameter to make the mutual
  recursion structural; `parse` supplies `4 * length + 8` fuel, an upper bound
  on the recursion depth (each `(` costs at most four nested calls, each
  `OR` / `AND` step consumes at least two characters for one call, and the
  initial descent plus final word cost at most eight).
-/

namespace Anubistats

/-! ## Query parser (crates/anubistats-query/src/lib.rs) -/

/-- Models `pub struct ParseError;`. -/
structure ParseError where
deriving DecidableEq, Repr

/-- Models `pub enum Query { Word(String), And(Box<Query>, Box<Query>),
Or(Box<Query>, Box<Query>) }`. -/
inductive Query where
  | Word : List Char → Query
  | And : Query → Query → Query
  | Or : Query → Query → Query
deriving DecidableEq, Repr

/-- Rust `char::is_alphanumeric`, modelled on the ASCII range. -/
def rustIsAlphanumeric (c : Char) : Bool := c.isAlphanum

/-- Rust `char::is_whitespace`, modelled on the ASCII range. -/
def rustIsWhitespace (c : Char) : Bool := c.isWhitespace

/-- Rust `str::trim_start`. -/
def trimStart (s : List Char) : List Char := s.dropWhile rustIsWhitespace

/-- Rust `str::trim_end`. -/
def trimEnd (s : List Char) : List Char := (s.reverse.dropWhile rustIsWhitespace).reverse

/-- Rust `str::strip_prefix`: the remainder after `p` when `p` leads `s`. -/
def stripPfx (p s : List Char) : Option (List Char) :=
  if p.isPrefixOf s then some (s.drop p.length) else none

mutual

/-- Models `fn primary_expr(input: &str) -> Result<(&str, Query), ParseError>`:
after trimming, either a parenthesized `expr` closed by `)`, or the maximal
alphanumeric run as a `Word` (possibly empty). -/
def primary_expr : Nat → List Char → Except ParseError (List Char × Query)
  | 0, _ => .error ⟨⟩
  | fuel + 1, input =>
    match stripPfx ['('] (trimStart input) with
    | some rest =>
      match expr fuel rest with
      | .error e => .error e
      | .ok (rest2, q) =>
        match stripPfx [')'] (trimStart rest2) with
        | some rest3 => .ok (rest3, q)
        | none => .error ⟨⟩
    | none =>
      .ok ((trimStart input).dropWhile rustIsAlphanumeric,
           .Word ((trimStart input).takeWhile rustIsAlphanumeric))

/-- Models `fn or_expr`: a `primary_expr`, then greedily a chain of `OR`s
(right-associated).  The `OR` token is stripped as a raw string prefix of the
trimmed remainder. -/
def or_expr : Nat → List Char → Except ParseError (List Char × Query)
  | 0, _ => .error ⟨⟩
  | fuel + 1, input =>
    match primary_expr fuel input with
    | .error e => .error e
    | .ok (rest, lhs) =>
      match stripPfx ['O', 'R'] (trimStart rest) with
      | some rest2 =>
        match or_expr fuel rest2 with
        | .error e => .error e
        | .ok (rest3, rhs) => .ok (rest3, .Or lhs rhs)
      | none => .ok (trimStart rest, lhs)

/-- Models `fn and_expr`: an `or_expr`, then greedily a chain of `AND`s
(right-associated), each `AND` stripped as a raw string prefix. -/
def and_expr : Nat → List Char → Except ParseError (List Char × Query)
  | 0, _ => .error ⟨⟩
  | fuel + 1, input =>
    match or_expr fuel input with
    | .error e => .error e
    | .ok (rest, lhs) =>
      match stripPfx ['A', 'N', 'D'] (trimStart rest) with
      | some rest2 =>
        match and_expr fuel rest2 with
        | .error e => .error e
        | .ok (rest3, rhs) => .ok (rest3, .And lhs rhs)
      | none => .ok (trimStart rest, lhs)

/-- Models `fn expr(input) = and_expr(input)`. -/
def expr : Nat → List Char → Except ParseError (List Char × Query)
  | 0, _ => .error ⟨⟩
  | fuel + 1, input => and_expr fuel input

end

/-- Models `pub fn parse(input: &str) -> Result<Query, ParseError>`: a full
`expr`, then the remainder must be whitespace only.  The fuel bounds the
recursion depth of the descent and is always sufficient (see the header). -/
def parse (input : List Char) : Except ParseError Query :=
  match expr (4 * input.length + 8) input with
  | .error e => .error e
  | .ok (rest, q) => if trimEnd rest = [] then .ok q else .error ⟨⟩

/-- Decidable equality for `Except`, used to evaluate parser results on
concrete inputs. -/
instance exceptDecEq {ε α : Type} [DecidableEq ε] [DecidableEq α] :
    DecidableEq (Except ε α)
  | .error a, .error b =>
    if h : a = b then .isTrue (by rw [h]) else .isFalse (by intro hc; cases hc; exact h rfl)
  | .error _, .ok _ => .isFalse (by intro hc; cases hc)
  | .ok _, .error _ => .isFalse (by intro hc; cases hc)
  | .ok a, .ok b =>
    if h : a = b then .isTrue (by rw [h]) else .isFalse (by intro hc; cases hc; exact h rfl)

/-- A non-empty maximal alphanumeric run: what the grammar calls a WORD. -/
def isWordTok (w : List Char) : Bool := !w.isEmpty && w.all rustIsAlphanumeric

/-- `true` when the list is empty or starts with a non-alphanumeric character,
i.e. appending it after a word keeps the word maximal. -/
def headNotAlnum : List Char → Bool
  | [] => true
  | c :: _ => !rustIsAlphanumeric c

/-! ### Parser unfolding lemmas -/

theorem alnum_not_ws {c : Char} (h : rustIsAlphanumeric c = true) :
    rustIsWhitespace c = false := by
  by_contra hw
  rw [Bool.not_eq_false] at hw
  unfold rustIsWhitespace Char.isWhitespace at hw
  simp only [Bool.or_eq_true, decide_eq_true_eq] at hw
  rcases hw with ((h1 | h1) | h1) | h1 <;> subst h1 <;> exact absurd h (by decide)

theorem alnum_ne_lparen {c : Char} (h : rustIsAlphanumeric c = true) : c ≠ '(' := by
  intro hc; subst hc; exact absurd h (by decide)

@[simp] theorem trimStart_nil : trimStart [] = [] := rfl

theorem trimStart_cons (c : Char) (l : List Char) :
    trimStart (c :: l) = if rustIsWhitespace c then trimStart l else c :: l := by
  simp [trimStart, List.dropWhile_cons]

theorem trimStart_cons_ws {c : Char} (h : rustIsWhitespace c = true) (l : List Char) :
    trimStart (c :: l) = trimStart l := by
  simp [trimStart_cons, h]

theorem trimStart_cons_not_ws {c : Char} (h : rustIsWhitespace c = false) (l : List Char) :
    trimStart (c :: l) = c :: l := by
  simp [trimStart_cons, h]

theorem trimStart_word {w rest : List Char} (hw : isWordTok w = true) :
    trimStart (w ++ rest) = w ++ rest := by
  cases w with
  | nil => simp [isWordTok] at hw
  | cons c cs =>
    have hc : rustIsAlphanumeric c = true := by
      simp [isWordTok, List.all_cons] at hw; exact hw.1
    exact trimStart_cons_not_ws (alnum_not_ws hc) _

theorem stripPfx_cons_nil (a : Char) (p : List Char) : stripPfx (a :: p) [] = none := by
  simp [stripPfx, List.isPrefixOf]

theorem stripPfx_cons_of_ne {a b : Char} (h : a ≠ b) (p s : List Char) :
    stripPfx (a :: p) (b :: s) = none := by
  simp [stripPfx, List.isPrefixOf, h]

theorem takeWhile_alnum_append {w rest : List Char}
    (hw : ∀ c ∈ w, rustIsAlphanumeric c = true) (hr : headNotAlnum rest = true) :
    (w ++ rest).takeWhile rustIsAlphanumeric = w ∧
      (w ++ rest).dropWhile rustIsAlphanumeric = rest := by
  induction w with
  | nil =>
    cases rest with
    | nil => simp
    | cons c cs =>
      simp only [headNotAlnum, Bool.not_eq_true'] at hr
      simp [List.takeWhile_cons, List.dropWhile_cons, hr]
  | cons c cs ih =>
    have hc : rustIsAlphanumeric c = true := hw c (by simp)
    have ih' := ih (fun d hd => hw d (by simp [hd]))
    simp [List.takeWhile_cons, List.dropWhile_cons, hc, ih'.1, ih'.2]

/-- A `primary_expr` whose trimmed input starts with a maximal word `w`
consumes exactly `w`. -/
theorem primary_expr_word {input w rest : List Char} (f : Nat)
    (hts : trimStart input = w ++ rest)
    (hw : isWordTok w = true) (hr : headNotAlnum rest = true) :
    primary_expr (f + 1) input = .ok (rest, .Word w) := by
  have hall : ∀ c ∈ w, rustIsAlphanumeric c = true := by
    intro c hc
    simp only [isWordTok, Bool.and_eq_true, List.all_eq_true] at hw
    exact hw.2 c hc
  have htd := takeWhile_alnum_append hall hr
  cases w with
  | nil => simp [isWordTok] at hw
  | cons c cs =>
    have hc : rustIsAlphanumeric c = true := hall c (by simp)
    rw [primary_expr, hts, List.cons_append]
    rw [stripPfx_cons_of_ne (fun h => alnum_ne_lparen hc h.symm) _ _]
    have h1 : List.dropWhile rustIsAlphanumeric (c :: (cs ++ rest)) = rest := by
      rw [← List.cons_append]; exact htd.2
    have h2 : List.takeWhile rustIsAlphanumeric (c :: (cs ++ rest)) = c :: cs := by
      rw [← List.cons_append]; exact htd.1
    simp [h1, h2]

theorem stripPfx_or (rest : List Char) :
    stripPfx ['O', 'R'] ('O' :: 'R' :: rest) = some rest := by
  simp [stripPfx, List.isPrefixOf]

theorem stripPfx_and (rest : List Char) :
    stripPfx ['A', 'N', 'D'] ('A' :: 'N' :: 'D' :: rest) = some rest := by
  simp [stripPfx, List.isPrefixOf]

theorem or_expr_stop {input rest t : List Char} {q : Query} (f : Nat)
    (hp : primary_expr f input = .ok (rest, q))
    (ht : trimStart rest = t)
    (hno : stripPfx ['O', 'R'] t = none) :
    or_expr (f + 1) input = .ok (t, q) := by
  simp only [or_expr, hp, ht, hno]

theorem or_expr_step {input rest t rest2 rest3 : List Char} {q rhs : Query} (f : Nat)
    (hp : primary_expr f input = .ok (rest, q))
    (ht : trimStart rest = t)
    (hyes : stripPfx ['O', 'R'] t = some rest2)
    (hrec : or_expr f rest2 = .ok (rest3, rhs)) :
    or_expr (f + 1) input = .ok (rest3, .Or q rhs) := by
  simp only [or_expr, hp, ht, hyes, hrec]

theorem and_expr_stop {input rest t : List Char} {q : Query} (f : Nat)
    (hp : or_expr f input = .ok (rest, q))
    (ht : trimStart rest = t)
    (hno : stripPfx ['A', 'N', 'D'] t = none) :
    and_expr (f + 1) input = .ok (t, q) := by
  simp only [and_expr, hp, ht, hno]

theorem and_expr_step {input rest t rest2 rest3 : List Char} {q rhs : Query} (f : Nat)
    (hp : or_expr f input = .ok (rest, q))
    (ht : trimStart rest = t)
    (hyes : stripPfx ['A', 'N', 'D'] t = some rest2)
    (hrec : and_expr f rest2 = .ok (rest3, rhs)) :
    and_expr (f + 1) input = .ok (rest3, .And q rhs) := by
  simp only [and_expr, hp, ht, hyes, hrec]

theorem expr_succ (f : Nat) (input : List Char) : expr (f + 1) input = and_expr f input := by
  simp only [expr]

theorem parse_of_expr {input : List Char} {q : Query}
    (h : ∀ f, expr (f + 6) input = .ok ([], q)) : parse input = .ok q := by
  have h48 : 4 * input.length + 8 = 4 * input.length + 2 + 6 := by omega
  unfold parse
  rw [h48, h (4 * input.length + 2)]
  rfl

/-- A lone word after optional leading whitespace: `primary_expr` consumes it
and leaves nothing. -/
theorem primary_expr_word_end {input w : List Char} (f : Nat)
    (hts : trimStart input = w) (hw : isWordTok w = true) :
    primary_expr (f + 1) input = .ok ([], .Word w) :=
  primary_expr_word f (hts.trans (List.append_nil w).symm) hw rfl

theorem trimStart_space_word {w rest : List Char} (hw : isWordTok w = true) :
    trimStart (' ' :: (w ++ rest)) = w ++ rest := by
  rw [trimStart_cons_ws (by decide)]; exact trimStart_word hw

theorem trimStart_space_word_end {w : List Char} (hw : isWordTok w = true) :
    trimStart (' ' :: w) = w := by
  rw [trimStart_cons_ws (by decide)]
  have h : trimStart (w ++ []) = w ++ [] := trimStart_word hw
  rwa [List.append_nil] at h

/-- Parsing `w1 AND w2 OR w3` gives `And(w1, Or(w2, w3))`. -/
theorem expr_and_or (f : Nat) {w1 w2 w3 : List Char}
    (h1 : isWordTok w1 = true) (h2 : isWordTok w2 = true) (h3 : isWordTok w3 = true) :
    expr (f + 6) (w1 ++ ' ' :: 'A' :: 'N' :: 'D' :: ' ' :: (w2 ++ ' ' :: 'O' :: 'R' :: ' ' :: w3))
      = .ok ([], .And (.Word w1) (.Or (.Word w2) (.Word w3))) := by
  have hor3 : or_expr (f + 2) (' ' :: w3) = .ok ([], .Word w3) :=
    or_expr_stop (f + 1) (primary_expr_word_end f (trimStart_space_word_end h3) h3)
      rfl (stripPfx_cons_nil _ _)
  have hor2 : or_expr (f + 3) (' ' :: (w2 ++ ' ' :: 'O' :: 'R' :: ' ' :: w3))
      = .ok ([], .Or (.Word w2) (.Word w3)) :=
    or_expr_step (f + 2)
      (primary_expr_word (f + 1) (trimStart_space_word h2) h2 rfl)
      (by rw [trimStart_cons_ws (by decide), trimStart_cons_not_ws (by decide)])
      (stripPfx_or _) hor3
  have hand2 : and_expr (f + 4) (' ' :: (w2 ++ ' ' :: 'O' :: 'R' :: ' ' :: w3))
      = .ok ([], .Or (.Word w2) (.Word w3)) :=
    and_expr_stop (f + 3) hor2 rfl (stripPfx_cons_nil _ _)
  have hor1 : or_expr (f + 4)
      (w1 ++ ' ' :: 'A' :: 'N' :: 'D' :: ' ' :: (w2 ++ ' ' :: 'O' :: 'R' :: ' ' :: w3))
      = .ok ('A' :: 'N' :: 'D' :: ' ' :: (w2 ++ ' ' :: 'O' :: 'R' :: ' ' :: w3), .Word w1) :=
    or_expr_stop (f + 3)
      (primary_expr_word (f + 2) (trimStart_word h1) h1 rfl)
      (by rw [trimStart_cons_ws (by decide), trimStart_cons_not_ws (by decide)])
      (stripPfx_cons_of_ne (by decide) _ _)
  rw [expr_succ]
  exact and_expr_step (f + 4) hor1 (trimStart_cons_not_ws (by decide) _)
    (stripPfx_and _) hand2

/-- Parsing `w1 OR w2 AND w3` gives `And(Or(w1, w2), w3)`. -/
theorem expr_or_and (f : Nat) {w1 w2 w3 : List Char}
    (h1 : isWordTok w1 = true) (h2 : isWordTok w2 = true) (h3 : isWordTok w3 = true) :
    expr (f + 6) (w1 ++ ' ' :: 'O' :: 'R' :: ' ' :: (w2 ++ ' ' :: 'A' :: 'N' :: 'D' :: ' ' :: w3))
      = .ok ([], .And (.Or (.Word w1) (.Word w2)) (.Word w3)) := by
  have hor2 : or_expr (f + 3) (' ' :: (w2 ++ ' ' :: 'A' :: 'N' :: 'D' :: ' ' :: w3))
      = .ok ('A' :: 'N' :: 'D' :: ' ' :: w3, .Word w2) :=
    or_expr_stop (f + 2)
      (primary_expr_word (f + 1) (trimStart_space_word h2) h2 rfl)
      (by rw [trimStart_cons_ws (by decide), trimStart_cons_not_ws (by decide)])
      (stripPfx_cons_of_ne (by decide) _ _)
  have hor1 : or_expr (f + 4)
      (w1 ++ ' ' :: 'O' :: 'R' :: ' ' :: (w2 ++ ' ' :: 'A' :: 'N' :: 'D' :: ' ' :: w3))
      = .ok ('A' :: 'N' :: 'D' :: ' ' :: w3, .Or (.Word w1) (.Word w2)) :=
    or_expr_step (f + 3)
      (primary_expr_word (f + 2) (trimStart_word h1) h1 rfl)
      (by rw [trimStart_cons_ws (by decide), trimStart_cons_not_ws (by decide)])
      (stripPfx_or _) hor2
  have hand3 : and_expr (f + 4) (' ' :: w3) = .ok ([], .Word w3) :=
    and_expr_stop (f + 3)
      (or_expr_stop (f + 2) (primary_expr_word_end (f + 1) (trimStart_space_word_end h3) h3)
        rfl (stripPfx_cons_nil _ _))
      rfl (stripPfx_cons_nil _ _)
  rw [expr_succ]
  exact and_expr_step (f + 4) hor1 (trimStart_cons_not_ws (by decide) _)
    (stripPfx_and _) hand3

/-- Parsing `w1 AND w2 AND w3` gives `And(w1, And(w2, w3))` (right-associated
chain). -/
theorem expr_and_and (f : Nat) {w1 w2 w3 : List Char}
    (h1 : isWordTok w1 = true) (h2 : isWordTok w2 = true) (h3 : isWordTok w3 = true) :
    expr (f + 6) (w1 ++ ' ' :: 'A' :: 'N' :: 'D' :: ' ' :: (w2 ++ ' ' :: 'A' :: 'N' :: 'D' :: ' ' :: w3))
      = .ok ([], .And (.Word w1) (.And (.Word w2) (.Word w3))) := by
  have hand3 : and_expr (f + 3) (' ' :: w3) = .ok ([], .Word w3) :=
    and_expr_stop (f + 2)
      (or_expr_stop (f + 1) (primary_expr_word_end f (trimStart_space_word_end h3) h3)
        rfl (stripPfx_cons_nil _ _))
      rfl (stripPfx_cons_nil _ _)
  have hor2 : or_expr (f + 3) (' ' :: (w2 ++ ' ' :: 'A' :: 'N' :: 'D' :: ' ' :: w3))
      = .ok ('A' :: 'N' :: 'D' :: ' ' :: w3, .Word w2) :=
    or_expr_stop (f + 2)
      (primary_expr_word (f + 1) (trimStart_space_word h2) h2 rfl)
      (by rw [trimStart_cons_ws (by decide), trimStart_cons_not_ws (by decide)])
      (stripPfx_cons_of_ne (by decide) _ _)
  have hand2 : and_expr (f + 4) (' ' :: (w2 ++ ' ' :: 'A' :: 'N' :: 'D' :: ' ' :: w3))
      = .ok ([], .And (.Word w2) (.Word w3)) :=
    and_expr_step (f + 3) hor2 (trimStart_cons_not_ws (by decide) _)
      (stripPfx_and _) hand3
  have hor1 : or_expr (f + 4)
      (w1 ++ ' ' :: 'A' :: 'N' :: 'D' :: ' ' :: (w2 ++ ' ' :: 'A' :: 'N' :: 'D' :: ' ' :: w3))
      = .ok ('A' :: 'N' :: 'D' :: ' ' :: (w2 ++ ' ' :: 'A' :: 'N' :: 'D' :: ' ' :: w3), .Word w1) :=
    or_expr_stop (f + 3)
      (primary_expr_word (f + 2) (trimStart_word h1) h1 rfl)
      (by rw [trimStart_cons_ws (by decide), trimStart_cons_not_ws (by decide)])
      (stripPfx_cons_of_ne (by decide) _ _)
  rw [expr_succ]
  exact and_expr_step (f + 4) hor1 (trimStart_cons_not_ws (by decide) _)
    (stripPfx_and _) hand2

/-- Parsing `w1 OR w2 OR w3` gives `Or(w1, Or(w2, w3))` (right-associated
chain). -/
theorem expr_or_or (f : Nat) {w1 w2 w3 : List Char}
    (h1 : isWordTok w1 = true) (h2 : isWordTok w2 = true) (h3 : isWordTok w3 = true) :
    expr (f + 6) (w1 ++ ' ' :: 'O' :: 'R' :: ' ' :: (w2 ++ ' ' :: 'O' :: 'R' :: ' ' :: w3))
      = .ok ([], .Or (.Word w1) (.Or (.Word w2) (.Word w3))) := by
  have hor3 : or_expr (f + 2) (' ' :: w3) = .ok ([], .Word w3) :=
    or_expr_stop (f + 1) (primary_expr_word_end f (trimStart_space_word_end h3) h3)
      rfl (stripPfx_cons_nil _ _)
  have hor2 : or_expr (f + 3) (' ' :: (w2 ++ ' ' :: 'O' :: 'R' :: ' ' :: w3))
      = .ok ([], .Or (.Word w2) (.Word w3)) :=
    or_expr_step (f + 2)
      (primary_expr_word (f + 1) (trimStart_space_word h2) h2 rfl)
      (by rw [trimStart_cons_ws (by decide), trimStart_cons_not_ws (by decide)])
      (stripPfx_or _) hor3
  have hor1 : or_expr (f + 4)
      (w1 ++ ' ' :: 'O' :: 'R' :: ' ' :: (w2 ++ ' ' :: 'O' :: 'R' :: ' ' :: w3))
      = .ok ([], .Or (.Word w1) (.Or (.Word w2) (.Word w3))) :=
    or_expr_step (f + 3)
      (primary_expr_word (f + 2) (trimStart_word h1) h1 rfl)
      (by rw [trimStart_cons_ws (by decide), trimStart_cons_not_ws (by decide)])
      (stripPfx_or _) hor2
  rw [expr_succ]
  exact and_expr_stop (f + 4) hor1 rfl (stripPfx_cons_nil _ _)

/-- C1: for all words (non-empty alphanumeric runs) `w1`, `w2`, `w3`, the
parser reproduces the non-standard precedence exactly:
`w1 AND w2 OR w3` parses as `And(w1, Or(w2, w3))`,
`w1 OR w2 AND w3` parses as `And(Or(w1, w2), w3)`,
and chains of one operator right-associate:
`w1 AND w2 AND w3` is `And(w1, And(w2, w3))` and
`w1 OR w2 OR w3` is `Or(w1, Or(w2, w3))`. -/
theorem claim_C1_parser_precedence (w1 w2 w3 : List Char)
    (h1 : isWordTok w1 = true) (h2 : isWordTok w2 = true) (h3 : isWordTok w3 = true) :
    parse (w1 ++ (" AND ".toList) ++ w2 ++ (" OR ".toList) ++ w3)
      = .ok (.And (.Word w1) (.Or (.Word w2) (.Word w3)))
    ∧ parse (w1 ++ (" OR ".toList) ++ w2 ++ (" AND ".toList) ++ w3)
      = .ok (.And (.Or (.Word w1) (.Word w2)) (.Word w3))
    ∧ parse (w1 ++ (" AND ".toList) ++ w2 ++ (" AND ".toList) ++ w3)
      = .ok (.And (.Word w1) (.And (.Word w2) (.Word w3)))
    ∧ parse (w1 ++ (" OR ".toList) ++ w2 ++ (" OR ".toList) ++ w3)
      = .ok (.Or (.Word w1) (.Or (.Word w2) (.Word w3))) := by
  have hA : (" AND ".toList) = [' ', 'A', 'N', 'D', ' '] := rfl
  have hO : (" OR ".toList) = [' ', 'O', 'R', ' '] := rfl
  refine ⟨?_, ?_, ?_, ?_⟩
  · apply parse_of_expr; intro f
    have hx : w1 ++ (" AND ".toList) ++ w2 ++ (" OR ".toList) ++ w3
        = w1 ++ ' ' :: 'A' :: 'N' :: 'D' :: ' ' :: (w2 ++ ' ' :: 'O' :: 'R' :: ' ' :: w3) := by
      simp [hA, hO, List.append_assoc]
    rw [hx]; exact expr_and_or f h1 h2 h3
  · apply parse_of_expr; intro f
    have hx : w1 ++ (" OR ".toList) ++ w2 ++ (" AND ".toList) ++ w3
        = w1 ++ ' ' :: 'O' :: 'R' :: ' ' :: (w2 ++ ' ' :: 'A' :: 'N' :: 'D' :: ' ' :: w3) := by
      simp [hA, hO, List.append_assoc]
    rw [hx]; exact expr_or_and f h1 h2 h3
  · apply parse_of_expr; intro f
    have hx : w1 ++ (" AND ".toList) ++ w2 ++ (" AND ".toList) ++ w3
        = w1 ++ ' ' :: 'A' :: 'N' :: 'D' :: ' ' :: (w2 ++ ' ' :: 'A' :: 'N' :: 'D' :: ' ' :: w3) := by
      simp [hA, List.append_assoc]
    rw [hx]; exact expr_and_and f h1 h2 h3
  · apply parse_of_expr; intro f
    have hx : w1 ++ (" OR ".toList) ++ w2 ++ (" OR ".toList) ++ w3
        = w1 ++ ' ' :: 'O' :: 'R' :: ' ' :: (w2 ++ ' ' :: 'O' :: 'R' :: ' ' :: w3) := by
      simp [hO, List.append_assoc]
    rw [hx]; exact expr_or_or f h1 h2 h3

/-- Witness for C1 at the concrete words `foo`, `bar`, `baz`. -/
theorem claim_C1_parser_precedence_witness :
    parse (("foo".toList) ++ (" AND ".toList) ++ ("bar".toList) ++ (" OR ".toList) ++ ("baz".toList))
      = .ok (.And (.Word ("foo".toList)) (.Or (.Word ("bar".toList)) (.Word ("baz".toList))))
    ∧ parse (("foo".toList) ++ (" OR ".toList) ++ ("bar".toList) ++ (" AND ".toList) ++ ("baz".toList))
      = .ok (.And (.Or (.Word ("foo".toList)) (.Word ("bar".toList))) (.Word ("baz".toList)))
    ∧ parse (("foo".toList) ++ (" AND ".toList) ++ ("bar".toList) ++ (" AND ".toList) ++ ("baz".toList))
      = .ok (.And (.Word ("foo".toList)) (.And (.Word ("bar".toList)) (.Word ("baz".toList))))
    ∧ parse (("foo".toList) ++ (" OR ".toList) ++ ("bar".toList) ++ (" OR ".toList) ++ ("baz".toList))
      = .ok (.Or (.Word ("foo".toList)) (.Or (.Word ("bar".toList)) (.Word ("baz".toList)))) :=
  claim_C1_parser_precedence ("foo".toList) ("bar".toList) ("baz".toList)
    (by decide) (by decide) (by decide)

/-- C3 counterexample: parsing the empty string does not fail — the parser
accepts an empty alphanumeric run as a word and returns `Ok(Word(""))`,
contradicting the claim that empty input yields a `ParseError`. -/
theorem claim_C3_counterexample : parse [] = .ok (.Word []) := by decide

theorem stripPfx_some_facts {p s r : List Char} (h : stripPfx p s = some r) :
    r = s.drop p.length ∧ p.length ≤ s.length := by
  unfold stripPfx at h
  by_cases hp : p.isPrefixOf s
  · rw [if_pos hp] at h
    cases h
    exact ⟨rfl, (List.isPrefixOf_iff_prefix.mp hp).length_le⟩
  · rw [if_neg hp] at h
    cases h

/-- The word branch of `primary_expr`: when the trimmed input does not start
with `(`, the parser always succeeds with the (possibly empty) maximal
alphanumeric run — a missing primary expression is not an error. -/
theorem primary_expr_word_branch {input : List Char} (f : Nat)
    (h : (trimStart input).head? ≠ some '(') :
    primary_expr (f + 1) input
      = .ok ((trimStart input).dropWhile rustIsAlphanumeric,
             .Word ((trimStart input).takeWhile rustIsAlphanumeric)) := by
  have hnone : stripPfx ['('] (trimStart input) = none := by
    cases ht : trimStart input with
    | nil => exact stripPfx_cons_nil _ _
    | cons c cs =>
      refine stripPfx_cons_of_ne ?_ _ _
      intro hc
      rw [ht] at h
      exact h (by rw [← hc]; rfl)
  rw [primary_expr, hnone]

/-- On input with no `(`, `primary_expr` succeeds and the remainder is a
sublist of the input. -/
theorem primary_expr_no_paren {input : List Char} (f : Nat) (h : '(' ∉ input) :
    primary_expr (f + 1) input
      = .ok ((trimStart input).dropWhile rustIsAlphanumeric,
             .Word ((trimStart input).takeWhile rustIsAlphanumeric))
    ∧ ((trimStart input).dropWhile rustIsAlphanumeric).Sublist input := by
  have hts : (trimStart input).Sublist input := List.dropWhile_sublist _
  refine ⟨primary_expr_word_branch f ?_, (List.dropWhile_sublist _).trans hts⟩
  intro hhead
  apply h
  apply hts.subset
  cases htri : trimStart input with
  | nil => rw [htri] at hhead; cases hhead
  | cons c cs =>
    rw [htri] at hhead
    simp only [List.head?_cons, Option.some.injEq] at hhead
    subst hhead
    simp

/-- On input with no `(`, an `or_expr` chain always succeeds (given fuel at
least `length + 2`). -/
theorem or_expr_no_paren :
    ∀ (f : Nat) (input : List Char), input.length + 2 ≤ f → '(' ∉ input →
      ∃ rest q, or_expr f input = .ok (rest, q) ∧ rest.Sublist input := by
  intro f
  induction f with
  | zero => intro input h _; exact absurd h (by omega)
  | succ f ih =>
    intro input hf hp
    obtain ⟨f', rfl⟩ : ∃ f', f = f' + 1 := ⟨f - 1, by omega⟩
    obtain ⟨hpe, hsub⟩ := primary_expr_no_paren f' hp
    have htsub : (trimStart ((trimStart input).dropWhile rustIsAlphanumeric)).Sublist input :=
      (List.dropWhile_sublist _).trans hsub
    cases hstrip : stripPfx ['O', 'R']
        (trimStart ((trimStart input).dropWhile rustIsAlphanumeric)) with
    | none =>
      exact ⟨_, _, or_expr_stop (f' + 1) hpe rfl hstrip, htsub⟩
    | some rest2 =>
      obtain ⟨hr2, hlen2⟩ := stripPfx_some_facts hstrip
      have hr2sub : rest2.Sublist input := by
        rw [hr2]; exact (List.drop_sublist _ _).trans htsub
      have hr2len : rest2.length + 2 ≤ f' + 1 := by
        have h1 := htsub.length_le
        have h2 : rest2.length
            = (trimStart ((trimStart input).dropWhile rustIsAlphanumeric)).length - 2 := by
          rw [hr2, List.length_drop]
          rfl
        have h3 : 2 ≤ (trimStart ((trimStart input).dropWhile rustIsAlphanumeric)).length :=
          hlen2
        omega
      obtain ⟨rest3, rhs, hrec, hr3sub⟩ :=
        ih rest2 hr2len (fun hc => hp (hr2sub.subset hc))
      exact ⟨rest3, .Or _ rhs, or_expr_step (f' + 1) hpe rfl hstrip hrec,
        hr3sub.trans hr2sub⟩

/-- On input with no `(`, an `and_expr` chain always succeeds (given fuel at
least `length + 3`). -/
theorem and_expr_no_paren :
    ∀ (f : Nat) (input : List Char), input.length + 3 ≤ f → '(' ∉ input →
      ∃ rest q, and_expr f input = .ok (rest, q) ∧ rest.Sublist input := by
  intro f
  induction f with
  | zero => intro input h _; exact absurd h (by omega)
  | succ f ih =>
    intro input hf hp
    obtain ⟨rest, q, hoe, hsub⟩ := or_expr_no_paren f input (by omega) hp
    have htsub : (trimStart rest).Sublist input :=
      (List.dropWhile_sublist _).trans hsub
    cases hstrip : stripPfx ['A', 'N', 'D'] (trimStart rest) with
    | none =>
      exact ⟨_, _, and_expr_stop f hoe rfl hstrip, htsub⟩
    | some rest2 =>
      obtain ⟨hr2, hlen2⟩ := stripPfx_some_facts hstrip
      have hr2sub : rest2.Sublist input := by
        rw [hr2]; exact (List.drop_sublist _ _).trans htsub
      have hr2len : rest2.length + 3 ≤ f := by
        have h1 := htsub.length_le
        have h2 : rest2.length = (trimStart rest).length - 3 := by
          rw [hr2, List.length_drop]
          rfl
        have h3 : 3 ≤ (trimStart rest).length := hlen2
        omega
      obtain ⟨rest3, rhs, hrec, hr3sub⟩ :=
        ih rest2 hr2len (fun hc => hp (hr2sub.subset hc))
      exact ⟨rest3, .And _ rhs, and_expr_step f hoe rfl hstrip hrec,
        hr3sub.trans hr2sub⟩

/-- On input with no `(`, the whole descent succeeds: the only failure point
of the parser is the close-parenthesis check. -/
theorem expr_no_paren (f : Nat) (input : List Char)
    (hf : input.length + 4 ≤ f) (hp : '(' ∉ input) :
    ∃ rest q, expr f input = .ok (rest, q) ∧ rest.Sublist input := by
  obtain ⟨f', rfl⟩ : ∃ f', f = f' + 1 := ⟨f - 1, by omega⟩
  obtain ⟨rest, q, h, hsub⟩ := and_expr_no_paren f' input (by omega) hp
  exact ⟨rest, q, by rw [expr_succ, h], hsub⟩

/-- C3 amended: for every input, `parse` fails with a `ParseError` exactly
when the recursive descent itself fails — possible only when the input
contains a `(`, since the unmatched-parenthesis check is the parser's sole
failure point — or when the descent succeeds and trailing non-whitespace
remains after the complete expression.  A missing primary expression never
fails: whenever a primary is expected and the trimmed input does not start
with `(`, the parser succeeds with the possibly-empty maximal alphanumeric
run as a `Word`; in particular `parse("")` and `parse("()")` return
`Ok(Word(""))`, `parse("foo AND")` returns `Ok(And(Word("foo"), Word("")))`,
while `parse("foo bar")` (trailing garbage) and `parse("(foo")` (unmatched
`(`) fail. -/
theorem claim_C3_amended (input : List Char) :
    (∀ f, (trimStart input).head? ≠ some '(' →
      primary_expr (f + 1) input
        = .ok ((trimStart input).dropWhile rustIsAlphanumeric,
               .Word ((trimStart input).takeWhile rustIsAlphanumeric)))
    ∧ (parse input = .error ⟨⟩
        ↔ (expr (4 * input.length + 8) input = .error ⟨⟩ ∧ '(' ∈ input)
          ∨ ∃ rest q, expr (4 * input.length + 8) input = .ok (rest, q)
              ∧ trimEnd rest ≠ [])
    ∧ parse [] = .ok (.Word [])
    ∧ parse ("()".toList) = .ok (.Word [])
    ∧ parse ("foo AND".toList) = .ok (.And (.Word ("foo".toList)) (.Word []))
    ∧ parse ("foo bar".toList) = .error ⟨⟩
    ∧ parse ("(foo".toList) = .error ⟨⟩ := by
  refine ⟨fun f h => primary_expr_word_branch f h, ?_, by decide, by decide,
    by decide, by decide, by decide⟩
  cases hexpr : expr (4 * input.length + 8) input with
  | error e =>
    cases e
    have hmem : '(' ∈ input := by
      by_contra hp
      obtain ⟨rest, q, hok, _⟩ := expr_no_paren (4 * input.length + 8) input (by omega) hp
      rw [hexpr] at hok
      exact Except.noConfusion hok
    have hparse : parse input = .error ⟨⟩ := by
      unfold parse
      rw [hexpr]
    constructor
    · intro _
      exact Or.inl ⟨rfl, hmem⟩
    · intro _
      exact hparse
  | ok p =>
    obtain ⟨rest, q⟩ := p
    by_cases ht : trimEnd rest = []
    · have hparse : parse input = .ok q := by
        unfold parse
        rw [hexpr]
        show (if trimEnd rest = [] then (Except.ok q : Except ParseError Query)
          else .error ⟨⟩) = .ok q
        rw [if_pos ht]
      constructor
      · intro hcontra
        rw [hparse] at hcontra
        exact Except.noConfusion hcontra
      · rintro (⟨he, _⟩ | ⟨rest', q', hok, hne⟩)
        · exact Except.noConfusion he
        · simp only [Except.ok.injEq, Prod.mk.injEq] at hok
          exact absurd (hok.1 ▸ ht) hne
    · have hparse : parse input = .error ⟨⟩ := by
        unfold parse
        rw [hexpr]
        show (if trimEnd rest = [] then (Except.ok q : Except ParseError Query)
          else .error ⟨⟩) = .error ⟨⟩
        rw [if_neg ht]
      constructor
      · intro _
        exact Or.inr ⟨rest, q, rfl, ht⟩
      · intro _
        exact hparse

/-- C8 counterexample: `"foo ORGANIC"` does not fail — after the word `foo`
the parser strips the raw prefix `OR` from `ORGANIC` without any token
boundary check and reads the word `GANIC`, contradicting the claim that the
second token is the single word `ORGANIC` and the input a `ParseError`. -/
theorem claim_C8_counterexample :
    parse ("foo ORGANIC".toList)
      = .ok (.Or (.Word ("foo".toList)) (.Word ("GANIC".toList))) := by
  decide

/-- C8 amended: inside a primary expression a WORD is a maximal run of
alphanumeric characters with whitespace skipped (`"fooORbar"` is one word),
but operator recognition strips `OR` / `AND` as raw string prefixes without a
token-boundary check, so `"foo ORGANIC"` parses as
`Or(Word("foo"), Word("GANIC"))` and `"foo ANDY"` parses as
`And(Word("foo"), Word("Y"))` instead of failing. -/
theorem claim_C8_amended :
    parse ("fooORbar".toList) = .ok (.Word ("fooORbar".toList))
    ∧ parse ("foo ORGANIC".toList)
      = .ok (.Or (.Word ("foo".toList)) (.Word ("GANIC".toList)))
    ∧ parse ("foo ANDY".toList)
      = .ok (.And (.Word ("foo".toList)) (.Word ("Y".toList))) := by
  decide

/-! ## Documents and the index builders
(crates/anubistats/src/lib.rs, bin/index.rs, main.rs) -/

/-- The dataset record (`lib.rs` `Record`), restricted to the fields the core
uses (`id`, `title`, `time`, `score`, `descendants`). -/
structure Record where
  id : Nat
  title : List Char
  time : Option Nat
  score : Option Nat
  descendants : Option Int
deriving DecidableEq, Repr

/-- Rust `str::to_lowercase`, modelled on the ASCII range. -/
def toLowercase (s : List Char) : List Char := s.map Char.toLower

/-- Rust `str::split_whitespace`, written with an accumulator so it is
structurally recursive (and hence evaluates in the kernel). -/
def splitWhitespaceAux : List Char → List Char → List (List Char)
  | [], acc => if acc.isEmpty then [] else [acc.reverse]
  | c :: cs, acc =>
    if rustIsWhitespace c then
      if acc.isEmpty then splitWhitespaceAux cs []
      else acc.reverse :: splitWhitespaceAux cs []
    else splitWhitespaceAux cs (c :: acc)

def splitWhitespace (s : List Char) : List (List Char) := splitWhitespaceAux s []

/-- The word loop shared by both builders: split the title on whitespace,
lowercase each token, keep the non-empty ones (in order). -/
def titleWords (title : List Char) : List (List Char) :=
  ((splitWhitespace title).map toLowercase).filter (fun w => !w.isEmpty)

/-- `RoaringBitmap::push`: inserts `id` only when it exceeds every current
element (i.e. the maximum); otherwise the bitmap is unchanged and Rust
returns `false`. -/
def rbPush (s : Finset ℕ) (id : ℕ) : Finset ℕ :=
  if ∀ x ∈ s, x < id then insert id s else s

/-- A `BTreeMap<String, RoaringBitmap>` modelled as an assoc list strictly
sorted by the lexicographic word order. -/
abbrev PostingsMap := List (List Char × Finset ℕ)

/-- `postings_lists.entry(word).or_insert_with(RoaringBitmap::new).push(id)`:
sorted insertion that pushes `id` into the word's bitmap. -/
def btreeInsertPush : PostingsMap → List Char → ℕ → PostingsMap
  | [], w, id => [(w, rbPush ∅ id)]
  | (w0, pl0) :: rest, w, id =>
    if w = w0 then (w0, rbPush pl0 id) :: rest
    else if w < w0 then (w, rbPush ∅ id) :: (w0, pl0) :: rest
    else (w0, pl0) :: btreeInsertPush rest w id

/-- The postings-building loop of `bin/index.rs` (lines 32-44): one surrogate
id per document, assigned by `enumerate` in stream order. -/
def indexPostings (recs : List Record) : PostingsMap :=
  (recs.enum).foldl
    (fun m p => (titleWords p.2.title).foldl (fun m w => btreeInsertPush m w p.1) m) []

/-- One stored-fields row (`stored_fields.parquet` schema of `bin/index.rs`). -/
structure StoredRow where
  id : ℕ
  doc_id : ℕ
  title : List Char
  date : Option (List Char)
  score : Option ℕ
  descendants : Option Int
deriving DecidableEq, Repr

/-- One iteration of the stored-fields loop of `bin/index.rs`; `fmt` models
the external date formatting (`OffsetDateTime::format(DATE_FORMAT)`). -/
def mkStoredRow (fmt : ℕ → List Char) (p : ℕ × Record) : StoredRow :=
  ⟨p.1, p.2.id, p.2.title, p.2.time.map fmt, p.2.score, p.2.descendants⟩

/-- The stored-fields table written by `bin/index.rs`: one row per document,
keyed by the `enumerate` surrogate id. -/
def buildStoredFields (fmt : ℕ → List Char) (recs : List Record) : List StoredRow :=
  (recs.enum).map (mkStoredRow fmt)

/-- The build loop of `main.rs` (lines 13-26).  NOTE: `roaring_id += 1` sits
inside the word loop, so the counter advances once per word occurrence, not
once per document (the `assert!(postings_list.push(..))` always succeeds
because the counter strictly increases). -/
def mainBuildStep (acc : PostingsMap × ℕ) (rec : Record) : PostingsMap × ℕ :=
  (titleWords rec.title).foldl (fun a w => (btreeInsertPush a.1 w a.2, a.2 + 1)) acc

/-- The postings map produced by `main.rs`. -/
def mainPostings (recs : List Record) : PostingsMap :=
  (recs.foldl mainBuildStep ([], 0)).1

/-! ## Postings store artifacts and lookups
(main.rs serialization, repl.rs and bin/query.rs lookups) -/

/-- Insertion into a sorted list (used to serialize a bitmap in ascending
order; written as plain structural recursion so it evaluates in the
kernel). -/
def insertSorted (x : ℕ) : List ℕ → List ℕ
  | [] => [x]
  | y :: ys => if x ≤ y then x :: y :: ys else y :: insertSorted x ys

theorem insertSorted_comm (a b : ℕ) (l : List ℕ) :
    insertSorted a (insertSorted b l) = insertSorted b (insertSorted a l) := by
  induction l with
  | nil =>
    by_cases h1 : a ≤ b
    · by_cases h2 : b ≤ a
      · have hab : a = b := le_antisymm h1 h2
        subst hab; rfl
      · simp [insertSorted, h1, h2]
    · have h2 : b ≤ a := le_of_not_le h1
      simp [insertSorted, h1, h2]
  | cons y ys ih =>
    by_cases hb : b ≤ y <;> by_cases ha : a ≤ y
    · by_cases hab : a ≤ b
      · by_cases hba : b ≤ a
        · have : a = b := le_antisymm hab hba
          subst this; rfl
        · simp [insertSorted, hb, ha, hab, hba]
      · have hba : b ≤ a := le_of_not_le hab
        simp [insertSorted, hb, ha, hab, hba]
    · have hab : ¬a ≤ b := fun h => ha (le_trans h hb)
      simp [insertSorted, hb, ha, hab]
    · have hba : ¬b ≤ a := fun h => hb (le_trans h ha)
      simp [insertSorted, hb, ha, hba]
    · simp [insertSorted, hb, ha, ih]

instance : LeftCommutative insertSorted := ⟨insertSorted_comm⟩

/-- The roaring byte serialization, abstracted to the ascending list of the
set's elements (one abstract byte cell per id); this preserves the
offset/length bookkeeping, which is all the lookups inspect. -/
def serializeRB (s : Finset ℕ) : List ℕ := Multiset.foldr insertSorted [] s.val

/-- `RoaringBitmap::serialized_size`, in the same abstract units. -/
def serializedSize (s : Finset ℕ) : ℕ := (serializeRB s).length

/-- `RoaringBitmap::deserialize_from` of an abstract byte slice. -/
def deserializeRB (l : List ℕ) : Finset ℕ := l.toFinset

/-- The offsets map written by `main.rs` (lines 32-37): each word maps to the
byte offset of its serialized postings list in the concatenated blob.  The
words arrive in sorted BTreeMap iteration order, so the insertion loop
reproduces the same sorted assoc list with accumulated offsets. -/
def postingsOffsetsAux : PostingsMap → ℕ → List (List Char × ℕ)
  | [], _ => []
  | (w, pl) :: rest, off => (w, off) :: postingsOffsetsAux rest (off + serializedSize pl)

def postingsOffsets (entries : PostingsMap) : List (List Char × ℕ) :=
  postingsOffsetsAux entries 0

/-- The concatenated postings blob (`postings_lists.bin`). -/
def postingsBlob (entries : PostingsMap) : List ℕ :=
  (entries.map (fun e => serializeRB e.2)).flatten

/-- `find_offset_and_length` (repl.rs lines 11-25): a successor-range query
on the sorted offsets map — take the first key ≥ `query` and the key right
after it; if the first equals `query` the pair (its offset, difference of the
two offsets) is returned, and `None` when either `range.next()` fails.  On a
sorted map, `range(query..)` is the suffix after dropping the keys below
`query`. -/
def find_offset_and_length (offsets : List (List Char × ℕ)) (query : List Char) :
    Option (ℕ × ℕ) :=
  match offsets.dropWhile (fun p => decide (p.1 < query)) with
  | (w1, o1) :: (_, o2) :: _ => if w1 = query then some (o1, o2 - o1) else none
  | _ => none

/-- `find_postings_list` (repl.rs lines 27-41): seek to the offset and
deserialize `length` bytes; an absent word gives the empty bitmap. -/
def find_postings_list (word : List Char) (postings_lists_file : List ℕ)
    (offsets : List (List Char × ℕ)) : Finset ℕ :=
  match find_offset_and_length offsets word with
  | some (offset, length) =>
    deserializeRB ((postings_lists_file.drop offset).take length)
  | none => ∅

/-- `eval_query` (repl.rs lines 43-63). -/
def eval_query_repl (postings_lists_file : List ℕ) (offsets : List (List Char × ℕ)) :
    Query → Finset ℕ
  | .Word word => find_postings_list word postings_lists_file offsets
  | .And lhs rhs =>
    eval_query_repl postings_lists_file offsets lhs ∩
      eval_query_repl postings_lists_file offsets rhs
  | .Or lhs rhs =>
    eval_query_repl postings_lists_file offsets lhs ∪
      eval_query_repl postings_lists_file offsets rhs

/-- `eval_query` (bin/query.rs lines 137-154), generic over the lookup
closure `F` exactly as in the source. -/
def eval_query (find_postings : List Char → Finset ℕ) : Query → Finset ℕ
  | .Word word => find_postings word
  | .And lhs rhs => eval_query find_postings lhs ∩ eval_query find_postings rhs
  | .Or lhs rhs => eval_query find_postings lhs ∪ eval_query find_postings rhs

/-- One row of `postings_lists.parquet`: (word, serialized postings list). -/
abbrev ParquetRow := List Char × List ℕ

/-- The parquet rows written by `bin/index.rs` (lines 84-93): the sorted
postings map with serialized bitmaps. -/
def parquetRows (entries : PostingsMap) : List ParquetRow :=
  entries.map (fun e => (e.1, serializeRB e.2))

/-- The page-statistics comparator of `find_postings_list_parquet`
(bin/query.rs lines 61-72): a page matches when page-min ≤ word ≤ page-max.
On the sorted word column the page statistics are its first and last
values. -/
def pageMatches (word : List Char) (page : List ParquetRow) : Bool :=
  match page.head?, page.getLast? with
  | some a, some b => decide (a.1 ≤ word) && decide (word ≤ b.1)
  | _, _ => false

/-- `find_postings_list_parquet` (bin/query.rs lines 31-135): binary-search
the page statistics for a page whose [min, max] can contain the word (on a
sorted word column at most one page matches, so the search is modelled by
`find?`), restrict the scan to that page, apply the exact word-equality row
filter, and deserialize the first matching row; a failed search or an empty
filter result yields the empty bitmap. -/
def find_postings_list_parquet (pages : List (List ParquetRow)) (word : List Char) :
    Finset ℕ :=
  match pages.find? (pageMatches word) with
  | some page =>
    match page.find? (fun r => decide (r.1 = word)) with
    | some r => deserializeRB r.2
    | none => ∅
  | none => ∅

/-- Strict sortedness of the assoc list underlying a `BTreeMap`. -/
def SortedMap (entries : PostingsMap) : Prop :=
  entries.Pairwise (fun a b => a.1 < b.1)

instance (entries : PostingsMap) : Decidable (SortedMap entries) := by
  unfold SortedMap
  infer_instance

/-! ## Stored-fields retrieval and aggregation (bin/query.rs) -/

/-- `struct Document` (bin/query.rs lines 156-160). -/
structure Document where
  roaring_id : ℕ
  doc_id : ℕ
  title : List Char
deriving DecidableEq, Repr

/-- `retrieve_stored_fields` (bin/query.rs lines 162-211): stream the
stored-fields rows in storage order, keep exactly those whose id the roaring
filter contains (the pushed-down row filter), and project
(id, doc_id, title). -/
def retrieve_stored_fields (roaring_ids_filter : Finset ℕ) (table : List StoredRow) :
    List Document :=
  (table.filter (fun row => decide (row.id ∈ roaring_ids_filter))).map
    (fun row => ⟨row.id, row.doc_id, row.title⟩)

/-- `struct ScoresGroupedByDate` (bin/query.rs lines 213-217): the three
parallel output arrays.  The `date` array records the group key — the
`RowConverter` sort encoding of the (possibly null) date value, which is
byte-equal exactly when the values are equal, modelled by the value itself. -/
structure ScoresGroupedByDate where
  date : List (Option (List Char))
  score : List ℕ
  count : List ℕ
deriving DecidableEq, Repr

/-- Index of the first occurrence of a key: models the `row_to_index`
HashMap of `group_scores_by_date`, whose entries map each seen key to the
output index at which its group was created. -/
def lookupIdx (key : Option (List Char)) : List (Option (List Char)) → Option ℕ
  | [] => none
  | k :: ks => if k = key then some 0 else (lookupIdx key ks).map (· + 1)

/-- One iteration of the accumulation loop of `group_scores_by_date`
(bin/query.rs lines 259-282): a null score contributes 0 to the sum; an
occupied key adds to the sums in place and bumps the count; a vacant key
appends a fresh group (sum = score, count = 1). -/
def groupStep (st : ScoresGroupedByDate) (row : StoredRow) : ScoresGroupedByDate :=
  match lookupIdx row.date st.date with
  | some i =>
    { st with
      score := st.score.set i (st.score.getD i 0 + row.score.getD 0),
      count := st.count.set i (st.count.getD i 0 + 1) }
  | none =>
    { date := st.date ++ [row.date],
      score := st.score ++ [row.score.getD 0],
      count := st.count ++ [1] }

/-- `group_scores_by_date` (bin/query.rs lines 219-290): stream the
stored-fields rows whose id passes the roaring filter and accumulate the
per-date sums and counts. -/
def group_scores_by_date (roaring_ids_filter : Finset ℕ) (table : List StoredRow) :
    ScoresGroupedByDate :=
  (table.filter (fun row => decide (row.id ∈ roaring_ids_filter))).foldl
    groupStep ⟨[], [], []⟩

/-- Spec-side description of group emission order: the values of a list in
first-occurrence order. -/
def firstSeen (l : List (Option (List Char))) : List (Option (List Char)) :=
  l.foldl (fun acc d => if d ∈ acc then acc else acc ++ [d]) []

/-- The score contributed by document `i` of the stream: its score field with
an absent value counted as 0 (and 0 for an out-of-range index). -/
def scoreAt (recs : List Record) (i : ℕ) : ℕ :=
  match recs.get? i with
  | some r => r.score.getD 0
  | none => 0

/-- One access of the REPL display loop of `bin/query.rs` (lines 342-348):
`value(i)` on the three arrays; arrow's `value` asserts the index is in
bounds, so an out-of-range access (modelled by `none`) is a panic. -/
def displayRow (g : ScoresGroupedByDate) (i : ℕ) :
    Option (Option (List Char) × ℕ × ℕ) :=
  match g.date.get? i, g.score.get? i, g.count.get? i with
  | some d, some s, some c => some (d, s, c)
  | _, _, _ => none

/-- The display loop `for i in 0..5 { ... value(i) ... }` of `bin/query.rs`
(lines 341-349): reads the group arrays at the fixed indices 0..4 with no
length check. -/
def displayGroups (g : ScoresGroupedByDate) :
    Option (List (Option (List Char) × ℕ × ℕ)) :=
  (List.range 5).mapM (displayRow g)

/-! ## C4: set algebra of the evaluator -/

/-- C4: for every lookup function and sub-queries A, B, C over a fixed index,
`eval_query` maps `And` to set intersection and `Or` to set union (both
children are always evaluated — the recursion is total and structural), and
the results are commutative and associative in the children at the semantic
level. -/
theorem claim_C4_eval_set_algebra (find_postings : List Char → Finset ℕ)
    (A B C : Query) :
    eval_query find_postings (.And A B)
      = eval_query find_postings A ∩ eval_query find_postings B
    ∧ eval_query find_postings (.Or A B)
      = eval_query find_postings A ∪ eval_query find_postings B
    ∧ eval_query find_postings (.And A B) = eval_query find_postings (.And B A)
    ∧ eval_query find_postings (.Or A B) = eval_query find_postings (.Or B A)
    ∧ eval_query find_postings (.And (.And A B) C)
      = eval_query find_postings (.And A (.And B C))
    ∧ eval_query find_postings (.Or (.Or A B) C)
      = eval_query find_postings (.Or A (.Or B C)) := by
  refine ⟨rfl, rfl, ?_, ?_, ?_, ?_⟩ <;>
    simp [eval_query, Finset.inter_comm, Finset.union_comm, Finset.inter_left_comm,
      Finset.union_left_comm, Finset.inter_assoc, Finset.union_assoc]

/-! ## C7: retrieval consistency -/

/-- C7: over a built stored-fields table, `retrieve_stored_fields R` returns
exactly the projections of the rows whose surrogate id is a member of `R`,
each exactly once, in the storage's natural row order — equivalently, the
filtered enumeration of the document stream — and the emitted surrogate ids
are strictly ascending. -/
theorem claim_C7_retrieve (fmt : ℕ → List Char) (recs : List Record) (R : Finset ℕ) :
    retrieve_stored_fields R (buildStoredFields fmt recs)
      = ((recs.enum).filter (fun p => decide (p.1 ∈ R))).map
          (fun p => ⟨p.1, p.2.id, p.2.title⟩)
    ∧ ((retrieve_stored_fields R (buildStoredFields fmt recs)).map
        (fun d => d.roaring_id)).Pairwise (· < ·) := by
  constructor
  · unfold retrieve_stored_fields buildStoredFields
    rw [List.filter_map]
    rw [List.map_map]
    rfl
  · unfold retrieve_stored_fields buildStoredFields
    rw [List.filter_map, List.map_map, List.map_map, List.pairwise_map]
    have h := List.pairwise_lt_range recs.length
    rw [← List.enum_map_fst recs, List.pairwise_map] at h
    exact h.filter _

/-! ## Group-by accumulator lemmas -/

theorem lookupIdx_lt_length {key : Option (List Char)} :
    ∀ {l : List (Option (List Char))} {i : ℕ}, lookupIdx key l = some i → i < l.length := by
  intro l
  induction l with
  | nil => intro i h; simp [lookupIdx] at h
  | cons k ks ih =>
    intro i h
    by_cases hk : k = key
    · simp only [lookupIdx, if_pos hk, Option.some.injEq] at h
      simp [← h]
    · simp only [lookupIdx, if_neg hk, Option.map_eq_some'] at h
      obtain ⟨j, hj, rfl⟩ := h
      have := ih hj
      simp only [List.length_cons]
      omega

theorem lookupIdx_none_iff {key : Option (List Char)} :
    ∀ {l : List (Option (List Char))}, lookupIdx key l = none ↔ key ∉ l := by
  intro l
  induction l with
  | nil => simp [lookupIdx]
  | cons k ks ih =>
    by_cases hk : k = key
    · simp [lookupIdx, hk]
    · simp [lookupIdx, if_neg hk, Option.map_eq_none', ih, hk, Ne.symm hk]

theorem sum_set_getD_add :
    ∀ (l : List ℕ) (i x : ℕ), i < l.length →
      (l.set i (l.getD i 0 + x)).sum = l.sum + x := by
  intro l
  induction l with
  | nil => intro i x h; simp at h
  | cons a as ih =>
    intro i x h
    cases i with
    | zero => simp [List.getD_cons_zero]; omega
    | succ j =>
      simp only [List.length_cons, Nat.add_lt_add_iff_right] at h
      simp only [List.getD_cons_succ, List.set_cons_succ, List.sum_cons, ih j x h]
      omega

/-- The emission-order step of the accumulator, as it acts on the `date`
output array. -/
def seenStep (acc : List (Option (List Char))) (d : Option (List Char)) :
    List (Option (List Char)) :=
  if d ∈ acc then acc else acc ++ [d]

/-- Invariant of the accumulation loop: the three output arrays stay aligned,
the counts sum to the number of rows consumed, the sums add every consumed
(null-as-zero) score, and the `date` array evolves by first-seen insertion. -/
theorem groupFold_spec (rows : List StoredRow) :
    ∀ st : ScoresGroupedByDate,
      st.score.length = st.date.length → st.count.length = st.date.length →
      ((rows.foldl groupStep st).score.length = (rows.foldl groupStep st).date.length
        ∧ (rows.foldl groupStep st).count.length = (rows.foldl groupStep st).date.length)
      ∧ (rows.foldl groupStep st).count.sum = st.count.sum + rows.length
      ∧ (rows.foldl groupStep st).score.sum
          = st.score.sum + (rows.map (fun r => r.score.getD 0)).sum
      ∧ (rows.foldl groupStep st).date = rows.foldl (fun acc r => seenStep acc r.date) st.date := by
  induction rows with
  | nil => intro st h1 h2; exact ⟨⟨h1, h2⟩, rfl, by simp, rfl⟩
  | cons r rs ih =>
    intro st h1 h2
    simp only [List.foldl_cons]
    cases hL : lookupIdx r.date st.date with
    | some i =>
      have hi : i < st.date.length := lookupIdx_lt_length hL
      have hmem : r.date ∈ st.date := by
        by_contra hmem
        rw [← lookupIdx_none_iff] at hmem
        rw [hmem] at hL
        cases hL
      have hstep : groupStep st r =
          ⟨st.date, st.score.set i (st.score.getD i 0 + r.score.getD 0),
            st.count.set i (st.count.getD i 0 + 1)⟩ := by
        simp [groupStep, hL]
      rw [hstep]
      have h1' : (st.score.set i (st.score.getD i 0 + r.score.getD 0)).length = st.date.length := by
        simp [h1]
      have h2' : (st.count.set i (st.count.getD i 0 + 1)).length = st.date.length := by
        simp [h2]
      obtain ⟨hlen, hcount, hscore, hdate⟩ :=
        ih ⟨st.date, st.score.set i (st.score.getD i 0 + r.score.getD 0),
            st.count.set i (st.count.getD i 0 + 1)⟩ h1' h2'
      refine ⟨hlen, ?_, ?_, ?_⟩
      · rw [hcount, sum_set_getD_add _ _ _ (by rw [h2]; exact hi)]
        simp; omega
      · rw [hscore, sum_set_getD_add _ _ _ (by rw [h1]; exact hi)]
        simp; omega
      · rw [hdate]
        have : seenStep st.date r.date = st.date := by simp [seenStep, hmem]
        rw [this]
    | none =>
      have hmem : r.date ∉ st.date := lookupIdx_none_iff.mp hL
      have hstep : groupStep st r =
          ⟨st.date ++ [r.date], st.score ++ [r.score.getD 0], st.count ++ [1]⟩ := by
        simp [groupStep, hL]
      rw [hstep]
      have h1' : (st.score ++ [r.score.getD 0]).length = (st.date ++ [r.date]).length := by
        simp [h1]
      have h2' : (st.count ++ [1]).length = (st.date ++ [r.date]).length := by
        simp [h2]
      obtain ⟨hlen, hcount, hscore, hdate⟩ :=
        ih ⟨st.date ++ [r.date], st.score ++ [r.score.getD 0], st.count ++ [1]⟩ h1' h2'
      refine ⟨hlen, ?_, ?_, ?_⟩
      · rw [hcount]; simp; omega
      · rw [hscore]; simp; omega
      · rw [hdate]
        have : seenStep st.date r.date = st.date ++ [r.date] := by simp [seenStep, hmem]
        rw [this]

theorem map_fst_filter_fst {β : Type} (l : List (ℕ × β)) (q : ℕ → Bool) :
    (l.filter (fun p => q p.1)).map Prod.fst = (l.map Prod.fst).filter q := by
  induction l with
  | nil => rfl
  | cons x xs ih => by_cases h : q x.1 <;> simp [List.filter_cons, h, ih]

theorem scoreAt_of_mem_enum {recs : List Record} {p : ℕ × Record} (h : p ∈ recs.enum) :
    p.2.score.getD 0 = scoreAt recs p.1 := by
  obtain ⟨i, x⟩ := p
  rw [List.mk_mem_enum_iff_getElem?] at h
  simp [scoreAt, h]

theorem filter_buildStoredFields (fmt : ℕ → List Char) (recs : List Record) (R : Finset ℕ) :
    (buildStoredFields fmt recs).filter (fun row => decide (row.id ∈ R))
      = ((recs.enum).filter (fun p => decide (p.1 ∈ R))).map (mkStoredRow fmt) := by
  unfold buildStoredFields
  rw [List.filter_map]
  rfl

theorem range_filter_toFinset {R : Finset ℕ} {n : ℕ} (hR : ∀ i ∈ R, i < n) :
    ((List.range n).filter (fun i => decide (i ∈ R))).toFinset = R := by
  ext i
  simp only [List.mem_toFinset, List.mem_filter, List.mem_range, decide_eq_true_eq]
  exact ⟨fun h => h.2, fun h => ⟨hR i h, h⟩⟩

theorem range_filter_nodup (R : Finset ℕ) (n : ℕ) :
    ((List.range n).filter (fun i => decide (i ∈ R))).Nodup :=
  (List.nodup_range n).filter _

/-- Length of the filtered enumeration: the number of stream positions whose
index the result set contains. -/
theorem length_filter_enum (recs : List Record) (R : Finset ℕ) :
    ((recs.enum).filter (fun p => decide (p.1 ∈ R))).length
      = ((List.range recs.length).filter (fun i => decide (i ∈ R))).length := by
  have h := congrArg List.length (map_fst_filter_fst (recs.enum) (fun i => decide (i ∈ R)))
  simpa [List.enum_map_fst] using h

/-- C6: over a built stored-fields table and a result set `R` of valid
surrogate ids, the group-by output satisfies: the per-group counts sum to
`|R|` (a null score still increments its group's count); the per-group sums
add up to the sum of the score field over the documents of `R` with absent
scores counted as 0; and the groups are emitted in first-seen order of the
date key, not sorted by key or value. -/
theorem claim_C6_aggregation (fmt : ℕ → List Char) (recs : List Record) (R : Finset ℕ)
    (hR : ∀ i ∈ R, i < recs.length) :
    (group_scores_by_date R (buildStoredFields fmt recs)).count.sum = R.card
    ∧ (group_scores_by_date R (buildStoredFields fmt recs)).score.sum
        = R.sum (scoreAt recs)
    ∧ (group_scores_by_date R (buildStoredFields fmt recs)).date
        = firstSeen (((buildStoredFields fmt recs).filter
            (fun row => decide (row.id ∈ R))).map (fun row => row.date)) := by
  obtain ⟨hlen, hcount, hscore, hdate⟩ :=
    groupFold_spec ((buildStoredFields fmt recs).filter (fun row => decide (row.id ∈ R)))
      ⟨[], [], []⟩ rfl rfl
  refine ⟨?_, ?_, ?_⟩
  · show (((buildStoredFields fmt recs).filter
        (fun row => decide (row.id ∈ R))).foldl groupStep ⟨[], [], []⟩).count.sum = R.card
    rw [hcount, filter_buildStoredFields, List.length_map, length_filter_enum]
    have hcard : R.card
        = ((List.range recs.length).filter (fun i => decide (i ∈ R))).length := by
      conv_lhs => rw [← range_filter_toFinset hR]
      exact List.toFinset_card_of_nodup (range_filter_nodup R _)
    rw [hcard]
    simp
  · show (((buildStoredFields fmt recs).filter
        (fun row => decide (row.id ∈ R))).foldl groupStep ⟨[], [], []⟩).score.sum
      = R.sum (scoreAt recs)
    rw [hscore, filter_buildStoredFields, List.map_map]
    have hmap : ((recs.enum).filter (fun p => decide (p.1 ∈ R))).map
        ((fun r : StoredRow => r.score.getD 0) ∘ mkStoredRow fmt)
        = ((recs.enum).filter (fun p => decide (p.1 ∈ R))).map (scoreAt recs ∘ Prod.fst) := by
      apply List.map_congr_left
      intro p hp
      exact scoreAt_of_mem_enum (List.mem_of_mem_filter hp)
    rw [hmap, ← List.map_map]
    have hfst := map_fst_filter_fst (recs.enum) (fun i => decide (i ∈ R))
    rw [List.enum_map_fst] at hfst
    rw [hfst]
    have hsum : R.sum (scoreAt recs)
        = (((List.range recs.length).filter (fun i => decide (i ∈ R))).map
            (scoreAt recs)).sum := by
      conv_lhs => rw [← range_filter_toFinset hR]
      exact List.sum_toFinset _ (range_filter_nodup R _)
    rw [hsum]
    simp
  · show (((buildStoredFields fmt recs).filter
        (fun row => decide (row.id ∈ R))).foldl groupStep ⟨[], [], []⟩).date
      = firstSeen (((buildStoredFields fmt recs).filter
          (fun row => decide (row.id ∈ R))).map (fun row => row.date))
    rw [hdate]
    simp only [firstSeen, List.foldl_map]
    rfl

/-- The three-document demo stream of spec §8, with scores, times and
descendant counts filled in to exercise the aggregator. -/
def demoRecords : List Record :=
  [⟨1, ("Rust is fast".toList), some 1681516800, some 10, none⟩,
   ⟨2, ("Go is simple".toList), none, none, some 3⟩,
   ⟨3, ("rust and go".toList), some 1681603200, some 7, none⟩]

/-- A concrete stand-in for the external date formatter. -/
def demoFmt (t : ℕ) : List Char :=
  if t = 1681516800 then ("20230415".toList) else ("20230416".toList)

/-- Witness for C6 at the demo stream and the result set {0, 2}. -/
theorem claim_C6_aggregation_witness :
    (∀ i ∈ ({0, 2} : Finset ℕ), i < demoRecords.length)
    ∧ ((group_scores_by_date {0, 2} (buildStoredFields demoFmt demoRecords)).count.sum
        = ({0, 2} : Finset ℕ).card
    ∧ (group_scores_by_date {0, 2} (buildStoredFields demoFmt demoRecords)).score.sum
        = ({0, 2} : Finset ℕ).sum (scoreAt demoRecords)
    ∧ (group_scores_by_date {0, 2} (buildStoredFields demoFmt demoRecords)).date
        = firstSeen (((buildStoredFields demoFmt demoRecords).filter
            (fun row => decide (row.id ∈ ({0, 2} : Finset ℕ)))).map (fun row => row.date))) :=
  ⟨by decide, claim_C6_aggregation demoFmt demoRecords {0, 2} (by decide)⟩

/-! ## First-seen order and the display loop (C10) -/

theorem seenFold_nodup :
    ∀ (l : List (Option (List Char))) (acc : List (Option (List Char))),
      acc.Nodup → (l.foldl seenStep acc).Nodup := by
  intro l
  induction l with
  | nil => intro acc h; simpa using h
  | cons d ds ih =>
    intro acc h
    simp only [List.foldl_cons]
    by_cases hd : d ∈ acc
    · rw [show seenStep acc d = acc from by simp [seenStep, hd]]
      exact ih acc h
    · rw [show seenStep acc d = acc ++ [d] from by simp [seenStep, hd]]
      refine ih _ ?_
      rw [List.nodup_append]
      exact ⟨h, List.nodup_singleton _, by
        intro a ha hb
        simp only [List.mem_singleton] at hb
        subst hb
        exact hd ha⟩

theorem seenFold_toFinset :
    ∀ (l : List (Option (List Char))) (acc : List (Option (List Char))),
      (l.foldl seenStep acc).toFinset = acc.toFinset ∪ l.toFinset := by
  intro l
  induction l with
  | nil => intro acc; simp
  | cons d ds ih =>
    intro acc
    simp only [List.foldl_cons]
    by_cases hd : d ∈ acc
    · rw [show seenStep acc d = acc from by simp [seenStep, hd], ih]
      ext x
      simp only [Finset.mem_union, List.mem_toFinset, List.toFinset_cons, Finset.mem_insert]
      by_cases hx : x = d
      · subst hx; tauto
      · tauto
    · rw [show seenStep acc d = acc ++ [d] from by simp [seenStep, hd], ih]
      ext x
      simp only [Finset.mem_union, List.mem_toFinset, List.toFinset_append,
        List.toFinset_cons, Finset.mem_insert, List.mem_cons, List.mem_singleton,
        List.not_mem_nil, or_false]
      tauto

/-- The number of groups is the number of distinct date keys. -/
theorem firstSeen_length (l : List (Option (List Char))) :
    (firstSeen l).length = l.toFinset.card := by
  have hnd := seenFold_nodup l [] List.nodup_nil
  have htf := seenFold_toFinset l []
  rw [show firstSeen l = l.foldl seenStep [] from rfl]
  calc (l.foldl seenStep []).length
      = (l.foldl seenStep []).toFinset.card := (List.toFinset_card_of_nodup hnd).symm
    _ = l.toFinset.card := by rw [htf]; simp

theorem mapM_option_isSome {α β : Type} (f : α → Option β) :
    ∀ l : List α, (l.mapM f).isSome ↔ ∀ x ∈ l, (f x).isSome := by
  intro l
  induction l with
  | nil =>
    constructor
    · intro _ x hx
      exact absurd hx (List.not_mem_nil x)
    · intro _
      rfl
  | cons x xs ih =>
    rw [List.mapM_cons]
    cases hf : f x with
    | none => simp [hf]
    | some y =>
      cases hxs : xs.mapM f <;> simp_all

theorem displayRow_isSome_iff (g : ScoresGroupedByDate) (i : ℕ) :
    (displayRow g i).isSome
      ↔ i < g.date.length ∧ i < g.score.length ∧ i < g.count.length := by
  constructor
  · intro h
    unfold displayRow at h
    have hd : i < g.date.length := by
      by_contra hlt
      rw [List.get?_eq_none.mpr (Nat.le_of_not_lt hlt)] at h
      simp at h
    have hs : i < g.score.length := by
      by_contra hlt
      rw [List.get?_eq_none.mpr (Nat.le_of_not_lt hlt)] at h
      cases hx : g.date.get? i <;> rw [hx] at h <;> simp at h
    have hc : i < g.count.length := by
      by_contra hlt
      rw [List.get?_eq_none.mpr (Nat.le_of_not_lt hlt)] at h
      cases hx : g.date.get? i <;> cases hy : g.score.get? i <;>
        rw [hx, hy] at h <;> simp at h
    exact ⟨hd, hs, hc⟩
  · intro h
    obtain ⟨h1, h2, h3⟩ := h
    unfold displayRow
    rw [List.get?_eq_get h1, List.get?_eq_get h2, List.get?_eq_get h3]
    rfl

theorem group_scores_by_date_eq (R : Finset ℕ) (table : List StoredRow) :
    group_scores_by_date R table
      = (table.filter (fun row => decide (row.id ∈ R))).foldl groupStep ⟨[], [], []⟩ := rfl

/-- C10 (implicit): the REPL display loop reads the group-by output arrays at
the fixed indices 0..4 with no length check, so it is in-bounds exactly when
the query's matching rows span at least 5 distinct date values; with fewer
than 5 distinct dates the access is out of bounds (arrow's `value` panics,
modelled by `none`). -/
theorem claim_C10_group_display_bounds (R : Finset ℕ) (table : List StoredRow) :
    (displayGroups (group_scores_by_date R table)).isSome
      ↔ 5 ≤ (((table.filter (fun row => decide (row.id ∈ R))).map
          (fun row => row.date)).toFinset).card := by
  obtain ⟨⟨hl1, hl2⟩, _, _, hdate⟩ :=
    groupFold_spec (table.filter (fun row => decide (row.id ∈ R))) ⟨[], [], []⟩ rfl rfl
  have hdlen : (group_scores_by_date R table).date.length
      = (((table.filter (fun row => decide (row.id ∈ R))).map
          (fun row => row.date)).toFinset).card := by
    rw [group_scores_by_date_eq, hdate,
      show (⟨[], [], []⟩ : ScoresGroupedByDate).date = ([] : List (Option (List Char))) from rfl,
      show ((table.filter (fun row => decide (row.id ∈ R))).foldl
          (fun acc r => seenStep acc r.date) ([] : List (Option (List Char))))
        = firstSeen ((table.filter (fun row => decide (row.id ∈ R))).map
            (fun row => row.date)) from by simp only [firstSeen, List.foldl_map]; rfl,
      firstSeen_length]
  unfold displayGroups
  rw [mapM_option_isSome]
  constructor
  · intro h
    have h4 := ((displayRow_isSome_iff _ 4).mp (h 4 (by decide))).1
    rw [hdlen] at h4
    omega
  · intro hcard i hi
    rw [displayRow_isSome_iff]
    have hi5 : i < 5 := List.mem_range.mp hi
    have hd : i < (group_scores_by_date R table).date.length := by
      rw [hdlen]; omega
    refine ⟨hd, ?_, ?_⟩
    · rw [group_scores_by_date_eq, hl1, ← group_scores_by_date_eq]
      exact hd
    · rw [group_scores_by_date_eq, hl2, ← group_scores_by_date_eq]
      exact hd

/-! ## Equivalence of the two postings lookups (C9) -/

/-- Reference lookup: the postings list the BTreeMap itself holds for `w`
(empty when absent). -/
def assocPostings (entries : PostingsMap) (w : List Char) : Finset ℕ :=
  match entries.find? (fun e => decide (e.1 = w)) with
  | some e => e.2
  | none => ∅

theorem toFinset_insertSorted (x : ℕ) (l : List ℕ) :
    (insertSorted x l).toFinset = insert x l.toFinset := by
  induction l with
  | nil => simp [insertSorted]
  | cons y ys ih =>
    by_cases h : x ≤ y
    · simp [insertSorted, h]
    · simp [insertSorted, h, ih, Finset.Insert.comm]

theorem deserializeRB_serializeRB (s : Finset ℕ) : deserializeRB (serializeRB s) = s := by
  unfold deserializeRB serializeRB
  induction s using Finset.cons_induction_on with
  | h₁ => simp
  | @h₂ a t ha ih =>
    rw [show (Finset.cons a t ha).val = a ::ₘ t.val from rfl, Multiset.foldr_cons,
      toFinset_insertSorted, ih]
    exact (Finset.cons_eq_insert a t ha).symm

/-- When the query is below every remaining key, `assocPostings` is empty. -/
theorem assocPostings_eq_empty_of_lt {entries : PostingsMap} {w : List Char}
    (h : ∀ e ∈ entries, w < e.1) : assocPostings entries w = ∅ := by
  unfold assocPostings
  rw [List.find?_eq_none.mpr ?_]
  intro e he
  simp only [decide_eq_true_eq]
  exact fun heq => absurd (heq ▸ h e he) (lt_irrefl w)

/-- The offsets-and-blob lookup of `repl.rs`, generalized over an already
consumed blob prefix: on a sorted store it returns the stored postings for
every word that is not the last key, and the empty set otherwise. -/
theorem find_postings_list_shift (w : List Char) :
    ∀ (entries : PostingsMap) (pre : List ℕ),
      SortedMap entries →
      (entries.map Prod.fst).getLast? ≠ some w →
      find_postings_list w (pre ++ postingsBlob entries)
          (postingsOffsetsAux entries pre.length)
        = assocPostings entries w := by
  intro entries
  induction entries with
  | nil => intro pre _ _; rfl
  | cons e rest ih =>
    intro pre hsort hlast
    obtain ⟨w0, pl0⟩ := e
    have hblob : pre ++ postingsBlob ((w0, pl0) :: rest)
        = (pre ++ serializeRB pl0) ++ postingsBlob rest := by
      simp [postingsBlob, List.append_assoc]
    have hoff : postingsOffsetsAux ((w0, pl0) :: rest) pre.length
        = (w0, pre.length) :: postingsOffsetsAux rest (pre ++ serializeRB pl0).length := by
      simp [postingsOffsetsAux, serializedSize]
    by_cases hlt : w0 < w
    · have hne : w0 ≠ w := ne_of_lt hlt
      have hfol : find_offset_and_length
            (postingsOffsetsAux ((w0, pl0) :: rest) pre.length) w
          = find_offset_and_length
            (postingsOffsetsAux rest (pre ++ serializeRB pl0).length) w := by
        unfold find_offset_and_length
        rw [hoff, List.dropWhile_cons]
        simp [hlt]
      have hlast' : (rest.map Prod.fst).getLast? ≠ some w := by
        cases rest with
        | nil => simp
        | cons e' rest' =>
          simp only [List.map_cons, List.getLast?_cons_cons] at hlast ⊢
          exact hlast
      have hstep : find_postings_list w (pre ++ postingsBlob ((w0, pl0) :: rest))
            (postingsOffsetsAux ((w0, pl0) :: rest) pre.length)
          = find_postings_list w ((pre ++ serializeRB pl0) ++ postingsBlob rest)
            (postingsOffsetsAux rest (pre ++ serializeRB pl0).length) := by
        unfold find_postings_list
        rw [hfol, hblob]
      rw [hstep, ih (pre ++ serializeRB pl0) hsort.of_cons hlast']
      unfold assocPostings
      rw [List.find?_cons_of_neg _ (by simp [hne])]
    · have hstop : (postingsOffsetsAux ((w0, pl0) :: rest) pre.length).dropWhile
          (fun p => decide (p.1 < w))
          = (w0, pre.length) :: postingsOffsetsAux rest (pre ++ serializeRB pl0).length := by
        rw [hoff, List.dropWhile_cons]
        simp [hlt]
      cases rest with
      | nil =>
        have hne : w0 ≠ w := by
          simpa using hlast
        have hfol : find_offset_and_length
              (postingsOffsetsAux [(w0, pl0)] pre.length) w = none := by
          unfold find_offset_and_length
          rw [hstop]
          rfl
        unfold find_postings_list
        rw [hfol]
        unfold assocPostings
        rw [List.find?_cons_of_neg _ (by simp [hne]), List.find?_nil]
      | cons e1 rest1 =>
        obtain ⟨w1, pl1⟩ := e1
        by_cases heq : w0 = w
        · have hfol : find_offset_and_length
              (postingsOffsetsAux ((w0, pl0) :: (w1, pl1) :: rest1) pre.length) w
              = some (pre.length, serializedSize pl0) := by
            unfold find_offset_and_length
            rw [hstop, postingsOffsetsAux]
            simp [heq, serializedSize]
          unfold find_postings_list
          rw [hfol, hblob, List.append_assoc]
          show deserializeRB
              (((pre ++ (serializeRB pl0 ++ postingsBlob ((w1, pl1) :: rest1))).drop
                pre.length).take (serializedSize pl0))
            = assocPostings ((w0, pl0) :: (w1, pl1) :: rest1) w
          rw [List.drop_left, serializedSize, List.take_left, deserializeRB_serializeRB]
          unfold assocPostings
          rw [List.find?_cons_of_pos _ (by simp [heq])]
        · have hwlt : w < w0 := lt_of_le_of_ne (not_lt.mp hlt) (Ne.symm heq)
          have hfol : find_offset_and_length
              (postingsOffsetsAux ((w0, pl0) :: (w1, pl1) :: rest1) pre.length) w
              = none := by
            unfold find_offset_and_length
            rw [hstop, postingsOffsetsAux]
            simp [heq]
          unfold find_postings_list
          rw [hfol]
          have hall : ∀ e ∈ (w0, pl0) :: (w1, pl1) :: rest1, w < e.1 := by
            intro e he
            rcases List.mem_cons.mp he with rfl | he'
            · exact hwlt
            · have := (List.pairwise_cons.mp hsort).1 e he'
              exact lt_trans hwlt this
          rw [assocPostings_eq_empty_of_lt hall]

/-- The sorted-offset-index lookup agrees with the stored postings for every
word other than the store's greatest key. -/
theorem find_postings_list_sorted {entries : PostingsMap} {w : List Char}
    (hs : SortedMap entries) (hlast : (entries.map Prod.fst).getLast? ≠ some w) :
    find_postings_list w (postingsBlob entries) (postingsOffsets entries)
      = assocPostings entries w := by
  have h := find_postings_list_shift w entries [] hs hlast
  simpa [postingsOffsets] using h

theorem sorted_head_le {p : List ParquetRow} {h : ParquetRow}
    (hs : p.Pairwise (fun a b => a.1 < b.1)) (hh : p.head? = some h) :
    ∀ a ∈ p, h.1 ≤ a.1 := by
  cases p with
  | nil => cases hh
  | cons x t =>
    cases hh
    intro a ha
    rcases List.mem_cons.mp ha with rfl | ha'
    · exact le_refl _
    · exact le_of_lt ((List.pairwise_cons.mp hs).1 a ha')

theorem sorted_le_getLast {p : List ParquetRow}
    (hs : p.Pairwise (fun a b => a.1 < b.1)) (hp : p ≠ []) :
    ∀ a ∈ p, a.1 ≤ (p.getLast hp).1 := by
  induction p with
  | nil => exact absurd rfl hp
  | cons x t ih =>
    intro a ha
    cases t with
    | nil =>
      rcases List.mem_cons.mp ha with rfl | ha'
      · exact le_refl _
      · cases ha'
    | cons y t' =>
      rw [List.getLast_cons (by simp)]
      rcases List.mem_cons.mp ha with rfl | ha'
      · have hmem : (y :: t').getLast (by simp) ∈ y :: t' := List.getLast_mem (by simp)
        exact le_of_lt ((List.pairwise_cons.mp hs).1 _ hmem)
      · exact ih (List.pairwise_cons.mp hs).2 (by simp) a ha'

/-- On sorted rows split into non-empty pages, the page-pruning lookup of
`bin/query.rs` agrees with a plain scan of all rows. -/
theorem parquet_lookup_eq_find (w : List Char) :
    ∀ pages : List (List ParquetRow),
      (pages.flatten).Pairwise (fun a b => a.1 < b.1) →
      (∀ p ∈ pages, p ≠ []) →
      find_postings_list_parquet pages w
        = (match (pages.flatten).find? (fun r => decide (r.1 = w)) with
           | some r => deserializeRB r.2
           | none => (∅ : Finset ℕ)) := by
  intro pages
  induction pages with
  | nil => intro _ _; rfl
  | cons p ps ih =>
    intro hsort hne
    have hp : p ≠ [] := hne p (by simp)
    have hsflat : (p ++ ps.flatten).Pairwise (fun a b => a.1 < b.1) := by
      simpa using hsort
    obtain ⟨hsp, hsps, hcross⟩ := List.pairwise_append.mp hsflat
    rw [show (p :: ps).flatten = p ++ ps.flatten from rfl, List.find?_append]
    by_cases hm : pageMatches w p = true
    · unfold find_postings_list_parquet
      rw [List.find?_cons_of_pos _ hm]
      show (match p.find? (fun r => decide (r.1 = w)) with
            | some r => deserializeRB r.2
            | none => (∅ : Finset ℕ)) = _
      cases hfp : p.find? (fun r => decide (r.1 = w)) with
      | some r => rw [Option.or_some]
      | none =>
        rw [Option.none_or]
        have hwle : w ≤ (p.getLast hp).1 := by
          unfold pageMatches at hm
          rw [List.getLast?_eq_getLast p hp] at hm
          cases hh : p.head? with
          | none => rw [hh] at hm; cases hm
          | some h0 => rw [hh] at hm; simp at hm; exact hm.2
        have hnone : (ps.flatten).find? (fun r => decide (r.1 = w)) = none := by
          rw [List.find?_eq_none]
          intro b hb
          have h2 : (p.getLast hp).1 < b.1 :=
            hcross _ (List.getLast_mem hp) _ hb
          have : w < b.1 := lt_of_le_of_lt hwle h2
          simp only [decide_eq_true_eq]
          exact fun heq => absurd (heq ▸ this) (lt_irrefl _)
        rw [hnone]
    · have hLHS : find_postings_list_parquet (p :: ps) w
          = find_postings_list_parquet ps w := by
        unfold find_postings_list_parquet
        rw [List.find?_cons_of_neg _ hm]
      have hfp : p.find? (fun r => decide (r.1 = w)) = none := by
        rw [List.find?_eq_none]
        intro a ha
        simp only [decide_eq_true_eq]
        unfold pageMatches at hm
        rw [List.getLast?_eq_getLast p hp] at hm
        cases hh : p.head? with
        | none =>
          cases p with
          | nil => exact absurd rfl hp
          | cons x t => cases hh
        | some h0 =>
          rw [hh] at hm
          simp only [Bool.and_eq_true, decide_eq_true_eq, not_and_or, Bool.not_eq_true] at hm
          rcases hm with hm1 | hm2
          · have hlt : w < h0.1 := not_le.mp (by simpa using hm1)
            have := sorted_head_le hsp hh a ha
            exact fun heq => absurd (heq ▸ lt_of_lt_of_le hlt this) (lt_irrefl _)
          · have hlt : (p.getLast hp).1 < w := not_le.mp (by simpa using hm2)
            have := sorted_le_getLast hsp hp a ha
            exact fun heq => absurd (heq ▸ lt_of_le_of_lt this hlt) (lt_irrefl _)
      rw [hLHS, ih hsps (fun q hq => hne q (by simp [hq])), hfp]
      rfl

/-- Scanning the parquet rows for a word recovers the stored postings. -/
theorem parquet_rows_find (entries : PostingsMap) (w : List Char) :
    (match (parquetRows entries).find? (fun r => decide (r.1 = w)) with
     | some r => deserializeRB r.2
     | none => (∅ : Finset ℕ)) = assocPostings entries w := by
  unfold parquetRows assocPostings
  rw [List.find?_map]
  rw [show ((fun r : ParquetRow => decide (r.1 = w)) ∘
      (fun e : List Char × Finset ℕ => (e.1, serializeRB e.2)))
    = (fun e : List Char × Finset ℕ => decide (e.1 = w)) from rfl]
  cases hf : entries.find? (fun e => decide (e.1 = w)) with
  | none => rfl
  | some e => exact deserializeRB_serializeRB e.2

/-- C9 counterexample: for artifacts built from the same document stream (the
three-document demo stream, indexed per document), the two lookup strategies
disagree on the word `simple` — the lexicographically greatest indexed word:
the sorted-offset-index lookup returns the empty set while the column-store
lookup returns its posting list {1}. -/
theorem claim_C9_counterexample :
    find_postings_list ("simple".toList) (postingsBlob (indexPostings demoRecords))
        (postingsOffsets (indexPostings demoRecords)) = ∅
    ∧ find_postings_list_parquet [parquetRows (indexPostings demoRecords)]
        ("simple".toList) = {1}
    ∧ find_postings_list ("simple".toList) (postingsBlob (indexPostings demoRecords))
        (postingsOffsets (indexPostings demoRecords))
      ≠ find_postings_list_parquet [parquetRows (indexPostings demoRecords)]
        ("simple".toList) := by
  decide

/-- C9 amended: over any postings store (a strictly sorted word → postings
map, e.g. one built per document by the indexer) serialized both ways — as
the offsets map plus concatenated blob of `main.rs`, and as the sorted
parquet rows of `bin/index.rs` split into any non-empty pages — the
sorted-offset-index lookup and the column-store page-pruning lookup return
the same posting list for every queried word, present or absent, EXCEPT the
lexicographically greatest indexed word, for which the offset-index lookup
returns the empty set (its successor-range query needs a following entry)
while the column-store lookup returns its posting list. -/
theorem claim_C9_amended (entries : PostingsMap) (pages : List (List ParquetRow))
    (w : List Char) (hs : SortedMap entries)
    (hj : pages.flatten = parquetRows entries)
    (hne : ∀ p ∈ pages, p ≠ [])
    (hw : (entries.map Prod.fst).getLast? ≠ some w) :
    find_postings_list w (postingsBlob entries) (postingsOffsets entries)
      = find_postings_list_parquet pages w := by
  rw [find_postings_list_sorted hs hw]
  rw [parquet_lookup_eq_find w pages
    (by rw [hj]; exact List.pairwise_map.mpr hs) hne]
  rw [hj, parquet_rows_find]

/-- Witness for the amended C9 on the demo store, single page, word `rust`. -/
theorem claim_C9_amended_witness :
    SortedMap (indexPostings demoRecords)
    ∧ ([parquetRows (indexPostings demoRecords)].flatten
        = parquetRows (indexPostings demoRecords))
    ∧ (∀ p ∈ [parquetRows (indexPostings demoRecords)], p ≠ [])
    ∧ ((indexPostings demoRecords).map Prod.fst).getLast? ≠ some ("rust".toList)
    ∧ find_postings_list ("rust".toList) (postingsBlob (indexPostings demoRecords))
        (postingsOffsets (indexPostings demoRecords))
      = find_postings_list_parquet [parquetRows (indexPostings demoRecords)]
        ("rust".toList) :=
  ⟨by decide, by simp, by decide, by decide,
    claim_C9_amended (indexPostings demoRecords) [parquetRows (indexPostings demoRecords)]
      ("rust".toList) (by decide) (by simp) (by decide) (by decide)⟩

/-! ## C2 and C5: the concrete build/lookup bugs -/

/-- A one-document stream whose title is the single word `a`. -/
def singleARecord : List Record := [⟨1, ("a".toList), none, none, none⟩]

/-- C2 (bug evidence): the word `a` is in the built index with posting list
{0} — document 0 is exactly the document whose title contains `a` — yet
evaluating the single-word query `Word("a")` through the repl lookup returns
the empty set, because `a` is the greatest (here: only) key and
`find_offset_and_length` requires a successor entry to compute the length.
An absent word (`b`) correctly returns the empty set rather than an error. -/
theorem claim_C2_last_word_lookup_bug :
    indexPostings singleARecord = [(("a".toList), {0})]
    ∧ eval_query_repl (postingsBlob (indexPostings singleARecord))
        (postingsOffsets (indexPostings singleARecord)) (.Word ("a".toList)) = ∅
    ∧ eval_query_repl (postingsBlob (indexPostings singleARecord))
        (postingsOffsets (indexPostings singleARecord)) (.Word ("b".toList)) = ∅ := by
  decide

/-- A one-document stream whose title has two words. -/
def fooBarRecord : List Record := [⟨1, ("foo bar".toList), none, none, none⟩]

/-- C5 (bug evidence): for the same one-document stream, the per-document
indexer (`bin/index.rs`, which enumerates documents) stores surrogate id 0
for both words, while the `main.rs` build increments its `roaring_id` inside
the word loop and stores id 1 for `bar` — an id outside [0, N) = {0} for the
N = 1 documents processed, violating one-id-per-document assignment. -/
theorem claim_C5_per_occurrence_ids :
    indexPostings fooBarRecord = [(("bar".toList), {0}), (("foo".toList), {0})]
    ∧ mainPostings fooBarRecord = [(("bar".toList), {1}), (("foo".toList), {0})]
    ∧ fooBarRecord.length = 1 := by
  decide

end Anubistats
